import Mathlib

/-!
Verification development for the login-streak engine of the
CEP_MENTAL_HEALTH repository (`src/api/streaks.js`).

Dates are embedded as whole days since an arbitrary epoch (`Int`), so that
date-fns' `differenceInDays` on `yyyy-MM-dd` calendar dates becomes integer
subtraction.  The supabase tables `login_history` and `streak_tracking`,
restricted to one student (all operations under scrutiny are per-student),
are embedded as an explicit `EngineState`; fallible store interactions are
embedded separately as an oracle (`StoreBehavior`) fixing the outcome of
each store call, with the engine's `{ error }` return values becoming
`Option StoreError`.
-/

namespace Streaks

/-- date-fns `differenceInDays a b`: the whole-day difference `a - b`. -/
def differenceInDays (a b : Int) : Int := a - b

/-- The descending sort `sort((a, b) => new Date(b) - new Date(a))`
performed by `updateStreak` on the login dates it read. -/
def sortDesc (l : List Int) : List Int :=
  List.insertionSort (fun a b => a ≥ b) l

/-- The `for` loop of `updateStreak` that grows `currentStreak`: starting
from the previous date `prev`, count how many consecutive adjacent pairs
(difference exactly one day) follow, stopping at the first pair whose
difference is not exactly 1. -/
def streakWalk : Int → List Int → Nat
  | _, [] => 0
  | prev, d :: ds =>
    if differenceInDays prev d = 1 then 1 + streakWalk d ds else 0

/-- The `currentStreak` computation of `updateStreak` on the
sorted-descending date list: 0 when the most recent login is more than one
day before `today`, otherwise 1 plus the walk over adjacent pairs. -/
def computeCurrentStreak (sorted : List Int) (today : Int) : Nat :=
  match sorted with
  | [] => 0
  | most :: rest =>
    if differenceInDays today most ≤ 1 then 1 + streakWalk most rest else 0

/-- The `longestStreak` scan of `updateStreak`: `tempStreak` and
`longestStreak` both start at 1; each adjacent pair with difference
exactly 1 increments `tempStreak` and folds it into the maximum, any other
pair resets `tempStreak` to 1. -/
def longestScan : Int → Nat → Nat → List Int → Nat
  | _, _, best, [] => best
  | prev, temp, best, d :: ds =>
    if differenceInDays prev d = 1 then
      longestScan d (temp + 1) (max best (temp + 1)) ds
    else
      longestScan d 1 best ds

/-- The `longestStreak` computation of `updateStreak` on the
sorted-descending date list, including the final
`Math.max(longestStreak, currentStreak)`. -/
def computeLongestStreak (sorted : List Int) (cur : Nat) : Nat :=
  match sorted with
  | [] => cur
  | most :: rest => max (longestScan most 1 1 rest) cur

/-- A row of the `streak_tracking` table (the StreakSummary). -/
structure Summary where
  current_streak : Nat
  longest_streak : Nat
  last_login_date : Option Int
  total_login_days : Nat
deriving Repr, DecidableEq

/-- The pure computation at the heart of `updateStreak`: from the list of
login dates read from `login_history` and `today`, the summary row it
upserts into `streak_tracking`.  (`updateStreak` only performs this write
when the list is non-empty; on the empty list it returns early.) -/
def updateStreakCalc (logins : List Int) (today : Int) : Summary :=
  let sorted := sortDesc logins
  let cur := computeCurrentStreak sorted today
  { current_streak := cur
    longest_streak := computeLongestStreak sorted cur
    last_login_date := some today
    total_login_days := logins.length }

/-- Number of consecutive adjacent pairs (difference exactly one day) at
the head of a descending date list, stopping at the first non-consecutive
pair.  Stated from the spec's description of the current-streak walk. -/
def consecHeadPairs : List Int → Nat
  | a :: b :: rest => if a - b = 1 then 1 + consecHeadPairs (b :: rest) else 0
  | _ => 0

/-- Length of the run of consecutive dates at the head of a descending
list (0 on the empty list). -/
def headRun : List Int → Nat
  | [] => 0
  | l => 1 + consecHeadPairs l

/-- The longest run of consecutive dates anywhere in a descending list:
the maximum, over all suffixes, of the consecutive run starting at the
head of that suffix.  This is the spec's "longest run of consecutive
dates found by one descending scan". -/
def longestRunMax : List Int → Nat
  | [] => 0
  | a :: rest => max (headRun (a :: rest)) (longestRunMax rest)

/-- The spec's description of the current streak: sort descending; when
the whole-day gap between `today` and the most recent date is at most 1,
1 plus the number of consecutive adjacent pairs at the head; otherwise 0. -/
def specCurrentStreak (dates : List Int) (today : Int) : Nat :=
  match sortDesc dates with
  | [] => 0
  | most :: rest =>
    if today - most ≤ 1 then 1 + consecHeadPairs (most :: rest) else 0

/-- The per-student store state: the student's `login_history` rows
(distinct dates, uniqueness enforced by the table's key on
`(student_id, login_date)`) and the student's `streak_tracking` row, when
present. -/
structure EngineState where
  history : List Int
  summary : Option Summary
deriving Repr, DecidableEq

/-- The all-zero `streak_tracking` row that `getStreakData` inserts when
no row exists: counters 0 and no `last_login_date`. -/
def zeroSummary : Summary :=
  { current_streak := 0
    longest_streak := 0
    last_login_date := none
    total_login_days := 0 }

/-- The `login_history` upsert of `recordLogin` with
`onConflict: (student_id, login_date)` and `ignoreDuplicates`: a date
already present is left alone, otherwise a row is appended. -/
def upsertLoginS (st : EngineState) (d : Int) : EngineState :=
  if d ∈ st.history then st else { st with history := st.history ++ [d] }

/-- The state effect of `updateStreak`: read all login dates; when none
exist, return early with no write; otherwise overwrite the
`streak_tracking` row with the recomputed summary. -/
def updateStreakS (st : EngineState) (today : Int) : EngineState :=
  if st.history.isEmpty then st
  else { st with summary := some (updateStreakCalc st.history today) }

/-- The state effect of `recordLogin`: upsert today's login row, then run
`updateStreak`. -/
def recordLoginS (st : EngineState) (today : Int) : EngineState :=
  updateStreakS (upsertLoginS st today) today

/-- The state effect and return value of `getStreakData`: a missing
`streak_tracking` row (supabase code PGRST116, explicitly not treated as
an error by the source) is materialized as the all-zero row, which is
also returned; an existing row is returned unchanged. -/
def getStreakDataS (st : EngineState) : Summary × EngineState :=
  match st.summary with
  | some s => (s, st)
  | none => (zeroSummary, { st with summary := some zeroSummary })

/-- The return value and state effect of `needsStreakMaintenance`: two
reads of `login_history` (yesterday's and today's row) and no write; the
result is `!!yesterdayLogin && !todayLogin`. -/
def needsStreakMaintenanceOp (st : EngineState) (today : Int) :
    Bool × EngineState :=
  ((decide ((today - 1) ∈ st.history) && !decide (today ∈ st.history)), st)

/-- States reachable through the engine's operations from a fresh student
(no login rows, no summary row). -/
inductive Reachable : EngineState → Prop
  | init : Reachable { history := [], summary := none }
  | login (st : EngineState) (d : Int) :
      Reachable st → Reachable (recordLoginS st d)
  | update (st : EngineState) (d : Int) :
      Reachable st → Reachable (updateStreakS st d)
  | read (st : EngineState) :
      Reachable st → Reachable (getStreakDataS st).2

/-- An error returned by a supabase store call. -/
inductive StoreError where
  | unavailable
deriving Repr, DecidableEq

/-- An oracle fixing the outcome of each store call performed during one
`recordLogin` invocation: the `login_history` upsert, the `login_history`
read inside `updateStreak`, and the `streak_tracking` upsert inside
`updateStreak`. -/
structure StoreBehavior where
  upsertLogin : Option StoreError
  readLogins : Except StoreError (List Int)
  writeSummary : Option StoreError
deriving Repr

/-- The `{ error }` value returned by `updateStreak` under a given store
behavior: a failing read or a failing summary write is caught and
returned; an empty read returns early with no error. -/
def updateStreakRun (beh : StoreBehavior) : Option StoreError :=
  match beh.readLogins with
  | Except.error e => some e
  | Except.ok logins =>
    if logins.isEmpty then none
    else
      match beh.writeSummary with
      | some e => some e
      | none => none

/-- The `{ error }` value returned by `recordLogin` under a given store
behavior: a failing login-row upsert is thrown, caught, and returned;
otherwise `updateStreak` is awaited but its returned `{ error }` value is
discarded, and `recordLogin` returns `{ error: null }`. -/
def recordLoginRun (beh : StoreBehavior) : Option StoreError :=
  match beh.upsertLogin with
  | some e => some e
  | none =>
    let _ := updateStreakRun beh
    none

/-- The fixed milestone table of `getStreakAchievements`. -/
def milestones : List Nat := [7, 14, 30, 60, 90, 180, 365]

/-- The `titles` lookup of `getAchievementTitle`, defaulting to a generic
title for a milestone outside the table. -/
def getAchievementTitle (days : Nat) : String :=
  if days = 7 then "🔥 Week Warrior"
  else if days = 14 then "⚡ Two-Week Thunder"
  else if days = 30 then "🌟 Month Master"
  else if days = 60 then "💪 60-Day Champion"
  else if days = 90 then "🏆 Quarter Conqueror"
  else if days = 180 then "👑 Half-Year Hero"
  else if days = 365 then "🎖️ Year-Long Legend"
  else toString days ++ "-Day Streak"

/-- An entry of the `achievements.current` list. -/
structure Achieved where
  milestone : Nat
  title : String
  achieved : Bool
deriving Repr, DecidableEq

/-- The `achievements.upcoming` entry. -/
structure Upcoming where
  milestone : Nat
  title : String
  daysRemaining : Nat
deriving Repr, DecidableEq

/-- The result of `getStreakAchievements`. -/
structure Achievements where
  current : List Achieved
  upcoming : Option Upcoming
deriving Repr, DecidableEq

/-- `getStreakAchievements`: every milestone at most `currentStreak` is
pushed onto `current` in table order; the first milestone strictly above
`currentStreak`, when one exists, becomes `upcoming` with
`daysRemaining = milestone - currentStreak`.  The `longestStreak`
parameter is accepted, as in the source, and never used. -/
def getStreakAchievements (currentStreak longestStreak : Nat) :
    Achievements :=
  let current := List.foldl
    (fun acc m =>
      if currentStreak ≥ m then
        acc ++ [{ milestone := m, title := getAchievementTitle m,
                  achieved := true }]
      else acc)
    [] milestones
  let upcoming :=
    match List.find? (fun m => decide (m > currentStreak)) milestones with
    | some m => some { milestone := m, title := getAchievementTitle m,
                       daysRemaining := m - currentStreak }
    | none => none
  { current := current, upcoming := upcoming }

end Streaks

namespace Streaks

/-- The current-streak `for` loop computes exactly the number of
consecutive adjacent pairs at the head of the remaining list. -/
theorem streakWalk_eq_consecHeadPairs (l : List Int) :
    ∀ prev, streakWalk prev l = consecHeadPairs (prev :: l) := by
  induction l with
  | nil => intro prev; simp [streakWalk, consecHeadPairs]
  | cons d ds ih =>
    intro prev
    simp only [streakWalk, consecHeadPairs, differenceInDays]
    by_cases h : prev - d = 1
    · simp [h, ih]
    · simp [h]

theorem headRun_cons (a : Int) (l : List Int) :
    headRun (a :: l) = 1 + consecHeadPairs (a :: l) := by
  simp [headRun]

/-- Accumulator characterization of the longest-streak scan: provided the
running maximum dominates the running temp, the scan returns the maximum
of the starting best, the run continuing through `prev`, and the longest
run inside the remaining list. -/
theorem longestScan_eq (l : List Int) :
    ∀ prev temp best, 1 ≤ temp → temp ≤ best →
      longestScan prev temp best l =
        max best (max (temp + consecHeadPairs (prev :: l)) (longestRunMax l)) := by
  induction l with
  | nil =>
    intro prev temp best h1 h2
    simp only [longestScan, consecHeadPairs, longestRunMax]
    omega
  | cons d ds ih =>
    intro prev temp best h1 h2
    have hrun : longestRunMax (d :: ds) =
        max (1 + consecHeadPairs (d :: ds)) (longestRunMax ds) := by
      simp [longestRunMax, headRun_cons]
    simp only [longestScan, differenceInDays]
    by_cases h : prev - d = 1
    · have hc : consecHeadPairs (prev :: d :: ds) = 1 + consecHeadPairs (d :: ds) := by
        simp [consecHeadPairs, h]
      rw [if_pos h, ih d (temp + 1) (max best (temp + 1)) (by omega) (by omega), hc, hrun]
      omega
    · have hc : consecHeadPairs (prev :: d :: ds) = 0 := by
        simp [consecHeadPairs, h]
      rw [if_neg h, ih d 1 best (by omega) (by omega), hc, hrun]
      omega

/-- The source's longest-streak computation equals the maximum of the
longest consecutive run in the sorted list and the current streak. -/
theorem computeLongestStreak_eq_longestRunMax (most : Int) (rest : List Int)
    (cur : Nat) :
    computeLongestStreak (most :: rest) cur = max (longestRunMax (most :: rest)) cur := by
  have h := longestScan_eq rest most 1 1 (by omega) (by omega)
  have hrun : longestRunMax (most :: rest) =
      max (1 + consecHeadPairs (most :: rest)) (longestRunMax rest) := by
    simp [longestRunMax, headRun_cons]
  simp only [computeLongestStreak, h]
  omega

theorem sortDesc_grace (D : Int) :
    sortDesc [D - 3, D - 2, D - 1] = [D - 1, D - 2, D - 3] := by
  simp only [sortDesc, List.insertionSort, List.orderedInsert]
  rw [if_neg (show ¬(D - 2 ≥ D - 1) by omega)]
  simp only [List.orderedInsert]
  rw [if_neg (show ¬(D - 3 ≥ D - 1) by omega), if_neg (show ¬(D - 3 ≥ D - 2) by omega)]

/-- Grace period: three consecutive logins ending yesterday keep a
current streak of 3. -/
theorem grace_current (D : Int) :
    (updateStreakCalc [D - 3, D - 2, D - 1] D).current_streak = 3 := by
  simp only [updateStreakCalc, sortDesc_grace, computeCurrentStreak, streakWalk,
    differenceInDays]
  split_ifs <;> omega

theorem sortDesc_lapse (D : Int) :
    sortDesc [D - 5, D - 4, D - 3] = [D - 3, D - 4, D - 5] := by
  simp only [sortDesc, List.insertionSort, List.orderedInsert]
  rw [if_neg (show ¬(D - 4 ≥ D - 3) by omega)]
  simp only [List.orderedInsert]
  rw [if_neg (show ¬(D - 5 ≥ D - 3) by omega), if_neg (show ¬(D - 5 ≥ D - 4) by omega)]

/-- Lapse: two full missed days reset the current streak to 0. -/
theorem lapse_current (D : Int) :
    (updateStreakCalc [D - 5, D - 4, D - 3] D).current_streak = 0 := by
  simp only [updateStreakCalc, sortDesc_lapse, computeCurrentStreak, streakWalk,
    differenceInDays]
  split_ifs <;> omega

/-- Lapse: the historical three-day run is still the longest streak. -/
theorem lapse_longest (D : Int) :
    (updateStreakCalc [D - 5, D - 4, D - 3] D).longest_streak = 3 := by
  simp only [updateStreakCalc, sortDesc_lapse, computeCurrentStreak, computeLongestStreak,
    streakWalk, longestScan, differenceInDays]
  split_ifs <;> omega

theorem streakWalk_le (l : List Int) : ∀ prev, streakWalk prev l ≤ l.length := by
  induction l with
  | nil => intro prev; simp [streakWalk]
  | cons d ds ih =>
    intro prev
    simp only [streakWalk, List.length_cons]
    split
    · have := ih d
      omega
    · omega

theorem consecHeadPairs_le (l : List Int) : ∀ a, consecHeadPairs (a :: l) ≤ l.length := by
  induction l with
  | nil => intro a; simp [consecHeadPairs]
  | cons b bs ih =>
    intro a
    simp only [consecHeadPairs, List.length_cons]
    split
    · have := ih b
      omega
    · omega

theorem longestRunMax_le (l : List Int) : longestRunMax l ≤ l.length := by
  induction l with
  | nil => simp [longestRunMax]
  | cons a as ih =>
    simp only [longestRunMax, headRun_cons, List.length_cons]
    have := consecHeadPairs_le as a
    omega

theorem length_sortDesc (l : List Int) : (sortDesc l).length = l.length :=
  List.length_insertionSort (fun a b => a ≥ b) l

/-- Every summary computed by `updateStreak` satisfies the counter
invariants: the longest streak dominates the current streak and the total
login-day count dominates the longest streak. -/
theorem updateStreakCalc_invariant (logins : List Int) (today : Int) :
    (updateStreakCalc logins today).current_streak ≤
      (updateStreakCalc logins today).longest_streak ∧
    (updateStreakCalc logins today).longest_streak ≤
      (updateStreakCalc logins today).total_login_days := by
  have hlen := length_sortDesc logins
  simp only [updateStreakCalc]
  cases h : sortDesc logins with
  | nil => simp [computeCurrentStreak, computeLongestStreak]
  | cons most rest =>
    rw [h] at hlen
    simp only [List.length_cons] at hlen
    have hcur : computeCurrentStreak (most :: rest) today ≤ rest.length + 1 := by
      simp only [computeCurrentStreak]
      split
      · have := streakWalk_le rest most
        omega
      · omega
    have hrun := longestRunMax_le (most :: rest)
    simp only [List.length_cons] at hrun
    rw [computeLongestStreak_eq_longestRunMax]
    constructor
    · omega
    · omega

end Streaks

namespace Streaks

theorem updateStreakS_history (st : EngineState) (t : Int) :
    (updateStreakS st t).history = st.history := by
  simp only [updateStreakS]
  split <;> rfl

theorem mem_upsertLoginS (st : EngineState) (d : Int) :
    d ∈ (upsertLoginS st d).history := by
  simp only [upsertLoginS]
  split
  · assumption
  · simp

theorem upsertLoginS_of_mem (st : EngineState) (d : Int) (h : d ∈ st.history) :
    upsertLoginS st d = st := by
  simp [upsertLoginS, h]

theorem mem_recordLoginS (st : EngineState) (d : Int) :
    d ∈ (recordLoginS st d).history := by
  rw [recordLoginS, updateStreakS_history]
  exact mem_upsertLoginS st d

theorem updateStreakS_of_ne (st : EngineState) (t : Int) (h : st.history ≠ []) :
    updateStreakS st t = { st with summary := some (updateStreakCalc st.history t) } := by
  simp [updateStreakS, h]

theorem getStreakDataS_history (st : EngineState) :
    ((getStreakDataS st).2).history = st.history := by
  obtain ⟨hist, sum⟩ := st
  cases sum <;> rfl

theorem getStreakDataS_summary (st : EngineState) :
    ((getStreakDataS st).2).summary = st.summary ∨
      (st.summary = none ∧ ((getStreakDataS st).2).summary = some zeroSummary) := by
  obtain ⟨hist, sum⟩ := st
  cases sum
  · right
    exact ⟨rfl, rfl⟩
  · left
    rfl

/-- A reachable state whose login history is empty has either no summary
row or the lazily-materialized all-zero row: the engine never writes a
non-zero summary without at least one login. -/
theorem reachable_empty_history (st : EngineState) (h : Reachable st) :
    st.history = [] → st.summary = none ∨ st.summary = some zeroSummary := by
  induction h with
  | init => intro _; left; rfl
  | login st' d _ _ =>
    intro hh
    exfalso
    have := mem_recordLoginS st' d
    rw [hh] at this
    exact absurd this (List.not_mem_nil d)
  | update st' d hst ih =>
    intro hh
    rw [updateStreakS_history] at hh
    have heq : updateStreakS st' d = st' := by
      simp [updateStreakS, hh]
    rw [heq]
    exact ih hh
  | read st' hst ih =>
    intro hh
    rw [getStreakDataS_history] at hh
    rcases getStreakDataS_summary st' with hsum | ⟨hnone, hsum⟩
    · rw [hsum]
      exact ih hh
    · right
      exact hsum

/-- Every summary row present in a reachable state satisfies the counter
invariants. -/
theorem reachable_summary_invariant (st : EngineState) (h : Reachable st) :
    ∀ s : Summary, st.summary = some s →
      s.current_streak ≤ s.longest_streak ∧
        s.longest_streak ≤ s.total_login_days := by
  induction h with
  | init => intro s hs; cases hs
  | login st' d _ ih =>
    intro s hs
    rw [recordLoginS] at hs
    by_cases hne : (upsertLoginS st' d).history = []
    · exfalso
      have := mem_upsertLoginS st' d
      rw [hne] at this
      exact absurd this (List.not_mem_nil d)
    · rw [updateStreakS_of_ne _ _ hne] at hs
      simp only [Option.some.injEq] at hs
      subst hs
      exact updateStreakCalc_invariant _ _
  | update st' d hst ih =>
    intro s hs
    by_cases hne : st'.history = []
    · have heq : updateStreakS st' d = st' := by
        simp [updateStreakS, hne]
      rw [heq] at hs
      exact ih s hs
    · rw [updateStreakS_of_ne _ _ hne] at hs
      simp only [Option.some.injEq] at hs
      subst hs
      exact updateStreakCalc_invariant _ _
  | read st' hst ih =>
    intro s hs
    rcases getStreakDataS_summary st' with hsum | ⟨hnone, hsum⟩
    · rw [hsum] at hs
      exact ih s hs
    · rw [hsum] at hs
      simp only [Option.some.injEq] at hs
      subst hs
      simp [zeroSummary]

end Streaks

namespace Streaks

/-- The `forEach`/push loop over the milestone table builds exactly the
filtered list of milestones at most the current streak, in table order. -/
theorem achievedFold_eq (cs : Nat) (l : List Nat) :
    ∀ acc : List Achieved,
      List.foldl
        (fun acc m =>
          if cs ≥ m then
            acc ++ [{ milestone := m, title := getAchievementTitle m,
                      achieved := true }]
          else acc)
        acc l
      = acc ++ (l.filter (fun m => decide (m ≤ cs))).map
          (fun m => { milestone := m, title := getAchievementTitle m,
                      achieved := true }) := by
  induction l with
  | nil => intro acc; simp
  | cons m ms ih =>
    intro acc
    simp only [List.foldl_cons, List.filter_cons]
    by_cases h : m ≤ cs
    · rw [if_pos (show cs ≥ m from h), ih]
      simp [h]
    · rw [if_neg (show ¬ cs ≥ m from h), ih]
      simp [h]

theorem find_gt_mem_lt (cs : Nat) (l : List Nat) :
    ∀ m, List.find? (fun x => decide (x > cs)) l = some m → m ∈ l ∧ cs < m := by
  induction l with
  | nil => intro m hm; cases hm
  | cons a as ih =>
    intro m hm
    by_cases h : a > cs
    · rw [List.find?_cons_of_pos _ (by simpa using h)] at hm
      cases hm
      exact ⟨List.mem_cons_self a as, h⟩
    · rw [List.find?_cons_of_neg _ (by simpa using h)] at hm
      obtain ⟨h1, h2⟩ := ih m hm
      exact ⟨List.mem_cons_of_mem a h1, h2⟩

/-- On an ascending list, `find?` of "strictly above `cs`" returns the
least element strictly above `cs`. -/
theorem find_gt_first (cs : Nat) (l : List Nat) (hs : l.Sorted (· ≤ ·)) :
    ∀ m, List.find? (fun x => decide (x > cs)) l = some m →
      ∀ x ∈ l, cs < x → m ≤ x := by
  induction l with
  | nil => intro m hm; cases hm
  | cons a as ih =>
    rw [List.sorted_cons] at hs
    intro m hm x hx hcs
    by_cases h : a > cs
    · rw [List.find?_cons_of_pos _ (by simpa using h)] at hm
      cases hm
      rcases List.mem_cons.mp hx with h1 | h1
      · omega
      · exact hs.1 x h1
    · rw [List.find?_cons_of_neg _ (by simpa using h)] at hm
      rcases List.mem_cons.mp hx with h1 | h1
      · omega
      · exact ih hs.2 m hm x h1 hcs

theorem find_gt_none (cs : Nat) (l : List Nat) (h : ∀ x ∈ l, x ≤ cs) :
    List.find? (fun x => decide (x > cs)) l = none := by
  rw [List.find?_eq_none]
  intro x hx
  simp only [decide_eq_true_eq]
  have := h x hx
  omega

theorem find_gt_of_mem (cs : Nat) (l : List Nat) :
    ∀ x ∈ l, cs < x → ∃ m, List.find? (fun x => decide (x > cs)) l = some m := by
  induction l with
  | nil => intro x hx; cases hx
  | cons a as ih =>
    intro x hx hcs
    by_cases h : a > cs
    · exact ⟨a, List.find?_cons_of_pos _ (by simpa using h)⟩
    · rw [List.find?_cons_of_neg _ (by simpa using h)]
      rcases List.mem_cons.mp hx with h1 | h1
      · omega
      · exact ih x h1 hcs

theorem milestones_sorted : milestones.Sorted (· ≤ ·) := by
  simp [milestones, List.sorted_cons]

theorem milestones_le (x : Nat) (hx : x ∈ milestones) : x ≤ 365 := by
  fin_cases hx <;> omega

end Streaks

namespace Streaks

/-- C1: for every non-empty list of login dates and every `today`, the
current streak computed by `updateStreak` equals the spec's description
(sort descending; gap at most 1 gives 1 plus the consecutive head pairs,
gap above 1 gives 0); and the grace-period instance: dates
`[D-3, D-2, D-1]` with `today = D` give a current streak of 3. -/
theorem current_streak_spec :
    (∀ (dates : List Int) (today : Int), dates ≠ [] →
      (updateStreakCalc dates today).current_streak = specCurrentStreak dates today)
    ∧ ∀ D : Int, (updateStreakCalc [D - 3, D - 2, D - 1] D).current_streak = 3 := by
  constructor
  · intro dates today _
    simp only [updateStreakCalc, specCurrentStreak]
    cases h : sortDesc dates with
    | nil => simp [computeCurrentStreak]
    | cons most rest =>
      simp only [computeCurrentStreak, differenceInDays,
        streakWalk_eq_consecHeadPairs rest most]
  · exact grace_current

/-- Witness for C1 at the concrete history `[0, 1, 2]` with today `2`. -/
theorem current_streak_spec_witness :
    (updateStreakCalc [0, 1, 2] 2).current_streak = specCurrentStreak [0, 1, 2] 2 :=
  current_streak_spec.1 [0, 1, 2] 2 (by decide)

/-- C2: for every non-empty list of login dates and every `today`, the
longest streak computed by `updateStreak` equals the maximum of the
longest consecutive run in the sorted-descending dates and the current
streak; and the lapse instance: dates `[D-5, D-4, D-3]` with `today = D`
give current streak 0 and longest streak 3. -/
theorem longest_streak_spec :
    (∀ (dates : List Int) (today : Int), dates ≠ [] →
      (updateStreakCalc dates today).longest_streak =
        max (longestRunMax (sortDesc dates))
          ((updateStreakCalc dates today).current_streak))
    ∧ ∀ D : Int,
        (updateStreakCalc [D - 5, D - 4, D - 3] D).current_streak = 0 ∧
        (updateStreakCalc [D - 5, D - 4, D - 3] D).longest_streak = 3 := by
  constructor
  · intro dates today _
    simp only [updateStreakCalc]
    cases h : sortDesc dates with
    | nil => simp [computeLongestStreak, computeCurrentStreak, longestRunMax]
    | cons most rest => rw [computeLongestStreak_eq_longestRunMax]
  · intro D
    exact ⟨lapse_current D, lapse_longest D⟩

/-- Witness for C2 at the concrete history `[5, 1, 2]` with today `5`. -/
theorem longest_streak_spec_witness :
    (updateStreakCalc [5, 1, 2] 5).longest_streak =
      max (longestRunMax (sortDesc [5, 1, 2]))
        ((updateStreakCalc [5, 1, 2] 5).current_streak) :=
  longest_streak_spec.1 [5, 1, 2] 5 (by decide)

/-- C3 counterexample: when the login-history read inside the triggered
recompute fails, `updateStreak` returns that error, yet `recordLogin`
discards it and returns success (`error: null`) — so a failing store
operation inside `recordLogin` is not surfaced to the caller. -/
theorem recordLogin_swallows_recompute_error :
    (updateStreakRun { upsertLogin := none,
                       readLogins := Except.error StoreError.unavailable,
                       writeSummary := none } = some StoreError.unavailable)
    ∧ (recordLoginRun { upsertLogin := none,
                        readLogins := Except.error StoreError.unavailable,
                        writeSummary := none } = none) :=
  ⟨rfl, rfl⟩

/-- C3 amended: `recordLogin` propagates a failure of the login-row
upsert, and returns success whenever the upsert succeeds regardless of
what happens inside the triggered recompute; `updateStreak` itself does
return its own store errors (failed read, or failed summary write on a
non-empty history) to its caller. -/
theorem recordLogin_error_propagation_amended (beh : StoreBehavior) :
    (∀ e, beh.upsertLogin = some e → recordLoginRun beh = some e)
    ∧ (beh.upsertLogin = none → recordLoginRun beh = none)
    ∧ (∀ e, beh.readLogins = Except.error e → updateStreakRun beh = some e)
    ∧ (∀ logins e, beh.readLogins = Except.ok logins → logins ≠ [] →
        beh.writeSummary = some e → updateStreakRun beh = some e) := by
  refine ⟨?_, ?_, ?_, ?_⟩
  · intro e he
    simp [recordLoginRun, he]
  · intro he
    simp [recordLoginRun, he]
  · intro e he
    simp [updateStreakRun, he]
  · intro logins e hr hne hw
    cases logins with
    | nil => exact absurd rfl hne
    | cons a as => simp [updateStreakRun, hr, hw]

/-- Witness for the amended C3: a failing upsert is returned by
`recordLogin`, and a failing summary write is returned by `updateStreak`. -/
theorem recordLogin_error_propagation_amended_witness :
    (recordLoginRun { upsertLogin := some StoreError.unavailable,
                      readLogins := Except.ok [0],
                      writeSummary := none } = some StoreError.unavailable)
    ∧ (updateStreakRun { upsertLogin := none,
                         readLogins := Except.ok [0],
                         writeSummary := some StoreError.unavailable }
        = some StoreError.unavailable) :=
  ⟨(recordLogin_error_propagation_amended _).1 StoreError.unavailable rfl,
   (recordLogin_error_propagation_amended _).2.2.2 [0] StoreError.unavailable rfl
     (by decide) rfl⟩

/-- C4 counterexample: on an empty login history, `updateStreak` does not
write the all-zero summary — it returns early and the summary store still
has no row. -/
theorem updateStreak_empty_no_write_cex :
    (updateStreakS { history := [], summary := none } 0).summary ≠ some zeroSummary
    ∧ (updateStreakS { history := [], summary := none } 0).summary = none := by
  decide

/-- C4 amended: for a student whose set of login dates is empty,
`updateStreak` performs no write at all — the state is unchanged and the
call returns success; no zero summary is written by the recompute (the
all-zero row is only materialized lazily by `getStreakData`). -/
theorem updateStreak_empty_noop :
    (∀ (st : EngineState) (today : Int), st.history = [] → updateStreakS st today = st)
    ∧ ∀ beh : StoreBehavior, beh.readLogins = Except.ok [] → updateStreakRun beh = none := by
  constructor
  · intro st today h
    simp [updateStreakS, h]
  · intro beh h
    simp [updateStreakRun, h]

/-- Witness for the amended C4 at the fresh state. -/
theorem updateStreak_empty_noop_witness :
    (updateStreakS { history := [], summary := none } 5
        = { history := [], summary := none })
    ∧ (updateStreakRun { upsertLogin := none,
                         readLogins := Except.ok [],
                         writeSummary := none } = none) :=
  ⟨updateStreak_empty_noop.1 _ 5 rfl, updateStreak_empty_noop.2 _ rfl⟩

/-- C5: every summary computed by `updateStreak` — for every list of
login dates and every `today` — satisfies
`currentStreak ≤ longestStreak ≤ totalLoginDays`, and every summary row
present in any state reachable through the engine's operations satisfies
the same invariant. -/
theorem summary_invariant :
    (∀ (logins : List Int) (today : Int),
      (updateStreakCalc logins today).current_streak ≤
          (updateStreakCalc logins today).longest_streak
        ∧ (updateStreakCalc logins today).longest_streak ≤
          (updateStreakCalc logins today).total_login_days)
    ∧ ∀ st : EngineState, Reachable st → ∀ s : Summary, st.summary = some s →
        s.current_streak ≤ s.longest_streak
          ∧ s.longest_streak ≤ s.total_login_days :=
  ⟨updateStreakCalc_invariant, reachable_summary_invariant⟩

/-- Witness for C5 at the history `[0, 1, 2]` and at the lazily
materialized zero summary. -/
theorem summary_invariant_witness :
    ((updateStreakCalc [0, 1, 2] 2).current_streak ≤
        (updateStreakCalc [0, 1, 2] 2).longest_streak
      ∧ (updateStreakCalc [0, 1, 2] 2).longest_streak ≤
        (updateStreakCalc [0, 1, 2] 2).total_login_days)
    ∧ (zeroSummary.current_streak ≤ zeroSummary.longest_streak
      ∧ zeroSummary.longest_streak ≤ zeroSummary.total_login_days) :=
  ⟨summary_invariant.1 [0, 1, 2] 2,
   summary_invariant.2 (getStreakDataS { history := [], summary := none }).2
     (Reachable.read _ Reachable.init) zeroSummary rfl⟩

/-- C6: `recordLogin` is idempotent per day — recording the same date
twice leaves the store (login history and streak summary) exactly as
after recording it once: the duplicate upsert is a no-op and no counter
is double-counted. -/
theorem recordLogin_idempotent :
    ∀ (st : EngineState) (d : Int),
      recordLoginS (recordLoginS st d) d = recordLoginS st d := by
  intro st d
  have hmem : d ∈ (recordLoginS st d).history := mem_recordLoginS st d
  have hne0 : (upsertLoginS st d).history ≠ [] := by
    intro hc
    have := mem_upsertLoginS st d
    rw [hc] at this
    exact absurd this (List.not_mem_nil d)
  have h1 : recordLoginS st d =
      { upsertLoginS st d with
        summary := some (updateStreakCalc (upsertLoginS st d).history d) } := by
    rw [recordLoginS, updateStreakS_of_ne _ _ hne0]
  conv_lhs => rw [recordLoginS, upsertLoginS_of_mem _ _ hmem]
  have hne1 : (recordLoginS st d).history ≠ [] := by
    intro hc
    rw [hc] at hmem
    exact absurd hmem (List.not_mem_nil d)
  rw [updateStreakS_of_ne _ _ hne1, h1]

/-- C7: `getStreakAchievements` marks achieved exactly the milestones at
most the current streak; the upcoming entry is the least milestone
strictly above the current streak with `daysRemaining` its distance, is
absent exactly when the current streak is at least 365, and the two
quoted instances (streak 10, streak 365) hold. -/
theorem achievements_spec :
    ∀ cs ls : Nat,
      ((getStreakAchievements cs ls).current.map (fun a => a.milestone) =
        milestones.filter (fun m => decide (m ≤ cs)))
      ∧ (∀ u, (getStreakAchievements cs ls).upcoming = some u →
          u.milestone ∈ milestones ∧ cs < u.milestone ∧
            u.daysRemaining = u.milestone - cs ∧
            ∀ m ∈ milestones, cs < m → u.milestone ≤ m)
      ∧ (365 ≤ cs → (getStreakAchievements cs ls).upcoming = none)
      ∧ (cs < 365 → ∃ u, (getStreakAchievements cs ls).upcoming = some u)
      ∧ ((getStreakAchievements 10 0).current.map (fun a => a.milestone) = [7]
        ∧ (getStreakAchievements 10 0).upcoming =
            some { milestone := 14, title := getAchievementTitle 14,
                   daysRemaining := 4 }
        ∧ (getStreakAchievements 365 0).current.map (fun a => a.milestone) =
            [7, 14, 30, 60, 90, 180, 365]
        ∧ (getStreakAchievements 365 0).upcoming = none) := by
  intro cs ls
  refine ⟨?_, ?_, ?_, ?_, by decide, by decide, by decide, by decide⟩
  · simp only [getStreakAchievements, achievedFold_eq cs milestones]
    simp [List.map_map, Function.comp_def]
  · intro u hu
    simp only [getStreakAchievements] at hu
    cases hf : List.find? (fun m => decide (m > cs)) milestones with
    | none => rw [hf] at hu; cases hu
    | some m =>
      rw [hf] at hu
      simp only [Option.some.injEq] at hu
      subst hu
      obtain ⟨hmem, hlt⟩ := find_gt_mem_lt cs milestones m hf
      exact ⟨hmem, hlt, rfl, find_gt_first cs milestones milestones_sorted m hf⟩
  · intro h365
    simp only [getStreakAchievements]
    rw [find_gt_none cs milestones (fun x hx => le_trans (milestones_le x hx) h365)]
  · intro h365
    simp only [getStreakAchievements]
    obtain ⟨m, hm⟩ := find_gt_of_mem cs milestones 365 (by simp [milestones]) h365
    rw [hm]
    exact ⟨_, rfl⟩

/-- Witness for C7 at current streaks 10 and 400. -/
theorem achievements_spec_witness :
    ((getStreakAchievements 10 0).current.map (fun a => a.milestone) =
      milestones.filter (fun m => decide (m ≤ 10)))
    ∧ (getStreakAchievements 400 0).upcoming = none :=
  ⟨(achievements_spec 10 0).1, (achievements_spec 400 0).2.2.1 (by decide)⟩

/-- C8: `needsStreakMaintenance` leaves the store untouched, returns true
exactly when yesterday's login row exists and today's does not, and
returns false immediately after a login for today is recorded. -/
theorem needsMaintenance_spec :
    ∀ (st : EngineState) (today : Int),
      (needsStreakMaintenanceOp st today).2 = st
      ∧ ((needsStreakMaintenanceOp st today).1 = true ↔
          (today - 1) ∈ st.history ∧ today ∉ st.history)
      ∧ (needsStreakMaintenanceOp (recordLoginS st today) today).1 = false := by
  intro st today
  refine ⟨rfl, ?_, ?_⟩
  · simp [needsStreakMaintenanceOp]
  · have := mem_recordLoginS st today
    simp [needsStreakMaintenanceOp, this]

/-- C9: for every reachable state of a student with zero login records,
`getStreakData` returns the all-zero summary (counters 0, no
`lastLoginDate`) rather than failing, and materializes the zero row into
the summary store on this first read. -/
theorem empty_history_zero_summary :
    ∀ st : EngineState, Reachable st → st.history = [] →
      (getStreakDataS st).1 = zeroSummary
      ∧ ((getStreakDataS st).2).summary = some zeroSummary := by
  intro st h hh
  have hcase := reachable_empty_history st h hh
  obtain ⟨hist, sum⟩ := st
  cases sum with
  | none => exact ⟨rfl, rfl⟩
  | some s =>
    rcases hcase with hs | hs
    · simp at hs
    · simp only [Option.some.injEq] at hs
      subst hs
      exact ⟨rfl, rfl⟩

/-- Witness for C9 at the fresh student state. -/
theorem empty_history_zero_summary_witness :
    (getStreakDataS { history := [], summary := none }).1 = zeroSummary
    ∧ ((getStreakDataS { history := [], summary := none }).2).summary
        = some zeroSummary :=
  empty_history_zero_summary _ Reachable.init rfl

/-- C10: `getStreakAchievements` does not depend on its `longestStreak`
argument — any two values give identical results. -/
theorem achievements_ignore_longest :
    ∀ cs ls1 ls2 : Nat,
      getStreakAchievements cs ls1 = getStreakAchievements cs ls2 :=
  fun _ _ _ => rfl

end Streaks
